import Mathlib

/-!
Verification of the form-builder web app (`src/web/src/app/page.tsx`).

The app's pure logic is shallowly embedded here:
* the CSV encoder `toCSV`;
* the bookmarklet text parser `parseBookmarkletPairs` and the fill logic of
  the compiled autofill script (`applyPair`);
* the JSON import gateway `importJSON` (the outcome of `JSON.parse` is an
  explicit `Option Json` input, `none` modelling a parse exception);
* the schema/entry store operations (`setFieldsOp`, `addFieldOp`,
  `removeFieldOp`, `saveEntry`, `deleteSavedEntry`, `updateValue`) together
  with the draft-reconciliation effect (`reconcile`).

Strings manipulated character-by-character in the source (CSV escaping, the
line/separator splitting of the bookmarklet parser, case folding) are
modelled as `List Char`; JavaScript objects used as string maps are modelled
as association lists in key-insertion order, mirroring object spread,
computed-key insertion, `delete`, and property lookup.
-/

namespace FormApp

/-! ## CSV codec (`toCSV`, page.tsx lines 44-56) -/

/-- A CSV input record: keys in JS-object insertion order, string values.
Models one element of `rows: Array<Record<string, string>>`. -/
abbrev Row : Type := List (List Char × List Char)

/-- `v.replaceAll('"', '""')`: every double-quote character is doubled. -/
def escQuotes : List Char → List Char
  | [] => []
  | c :: cs => if c == '"' then '"' :: '"' :: escQuotes cs else c :: escQuotes cs

/-- The regex test `/[",\n]/.test(s)`. -/
def needsQuote (s : List Char) : Bool :=
  s.any (fun c => c == '"' || c == ',' || c == '\n')

/-- The `escape` closure inside `toCSV`: double internal quotes, then wrap
in quotes when the escaped text contains a quote, comma or newline. -/
def escape (v : List Char) : List Char :=
  let s := escQuotes v
  if needsQuote s then '"' :: s ++ ['"'] else s

/-- `Array.prototype.join(sep)`: empty list gives the empty string,
otherwise the parts with `sep` between consecutive parts. -/
def joinWith (sep : List Char) : List (List Char) → List Char
  | [] => []
  | [x] => x
  | x :: y :: ys => x ++ sep ++ joinWith sep (y :: ys)

/-- JS property read `row[h]` on a string-map object: `none` models
`undefined`. -/
def getRV (row : Row) (k : List Char) : Option (List Char) :=
  (row.find? (fun p => p.1 == k)).map (·.2)

/-- `toCSV(rows)` translated from the source: empty input yields the empty
string; otherwise the header is the key order of the first record, each row
maps `row[h] ?? ""` through `escape`, cells are comma-joined and lines are
newline-joined. -/
def toCSV (rows : List Row) : List Char :=
  match rows with
  | [] => []
  | r0 :: _ =>
    let headers := r0.map Prod.fst
    joinWith ['\n']
      (joinWith [','] headers ::
        rows.map (fun row =>
          joinWith [','] (headers.map (fun h => escape ((getRV row h).getD [])))))

/-- Escaping as the spec words it: the doubled-quote text is wrapped in
quotes exactly when the ORIGINAL value contains a comma, double-quote or
newline (stated on the input rather than on the escaped text). -/
def escape_spec (v : List Char) : List Char :=
  if v.any (fun c => c == ',' || c == '"' || c == '\n') then
    '"' :: escQuotes v ++ ['"']
  else escQuotes v

/-- The CSV encode contract as the spec words it; an absent value is taken
as the empty string before escaping. -/
def toCSV_spec (rows : List Row) : List Char :=
  match rows with
  | [] => []
  | r0 :: _ =>
    let headers := r0.map Prod.fst
    joinWith ['\n']
      (joinWith [','] headers ::
        rows.map (fun row =>
          joinWith [','] (headers.map (fun h => escape_spec ((getRV row h).getD [])))))

/-- `String.prototype.split('\n')`-style splitting on the newline
character; the result always has one more chunk than there are newline
occurrences. -/
def splitNl : List Char → List (List Char)
  | [] => [[]]
  | c :: cs =>
    if c = '\n' then [] :: splitNl cs
    else
      match splitNl cs with
      | [] => [[c]]
      | l :: ls => (c :: l) :: ls

/-! ## Bookmarklet text parser (`parseBookmarkletPairs`, lines 58-68) -/

/-- ASCII whitespace recognised by the JS `\s` class (the app's inputs are
ASCII; the Unicode space characters `\s` additionally matches never occur
here). -/
def isWs (c : Char) : Bool :=
  c == ' ' || c == '\t' || c == '\n' || c == '\r' || c == '\x0b' || c == '\x0c'

/-- A separator character of the regex class `[=:]`. -/
def isSepChar (c : Char) : Bool := c == '=' || c == ':'

/-- Whether a match of `/\s*[=:]\s*/` begins at the head of `l`: some run
of whitespace (possibly empty) followed by `=` or `:`. -/
def matchStart (l : List Char) : Bool :=
  match l.dropWhile isWs with
  | c :: _ => isSepChar c
  | [] => false

/-- One splitting pass of `line.split(/\s*[=:]\s*/)`, fuelled so that the
definition is structurally recursive; each step consumes at least one
character, so fuel equal to the length of the input suffices. -/
def splitSepGo : Nat → List Char → List Char → List (List Char)
  | _, [], acc => [acc.reverse]
  | 0, l, acc => [acc.reverse ++ l]
  | fuel + 1, c :: cs, acc =>
    if matchStart (c :: cs) then
      let rest := (((c :: cs).dropWhile isWs).tail).dropWhile isWs
      acc.reverse :: splitSepGo fuel rest []
    else
      splitSepGo fuel cs (c :: acc)

/-- `line.split(/\s*[=:]\s*/)`: split at every leftmost match of the
separator regex (greedy whitespace on both sides of a single `=` or `:`). -/
def splitSep (l : List Char) : List (List Char) :=
  splitSepGo l.length l []

/-- `text.split(/\r?\n/)`. -/
def splitLines : List Char → List (List Char)
  | [] => [[]]
  | '\r' :: '\n' :: cs => [] :: splitLines cs
  | '\n' :: cs => [] :: splitLines cs
  | c :: cs =>
    match splitLines cs with
    | [] => [[c]]
    | l :: ls => (c :: l) :: ls

/-- `String.prototype.trim()` over the ASCII whitespace model. -/
def trimWs (l : List Char) : List Char :=
  ((l.dropWhile isWs).reverse.dropWhile isWs).reverse

/-- `parseBookmarkletPairs(text)` translated from the source: split into
lines, trim each, drop falsy (empty) lines, destructure
`[sel, ...rest] = line.split(/\s*[=:]\s*/)` into
`{ selector: sel, value: rest.join(": ") }`, and drop pairs whose selector
is empty. -/
def parseBookmarkletPairs (text : List Char) : List (List Char × List Char) :=
  ((((splitLines text).map trimWs).filter (fun l => !l.isEmpty)).map
    (fun line =>
      let parts := splitSep line
      (parts.headI, joinWith (':' :: ' ' :: []) parts.tail))).filter
    (fun p => !p.1.isEmpty)

/-! ## Compiled autofill script fill logic (`buildBookmarklet`, lines 81-92) -/

/-- ASCII lower-casing of a character, as `String.prototype.toLowerCase`
acts on the ASCII inputs involved here. -/
def lowerChar (c : Char) : Char :=
  if 'A' ≤ c ∧ c ≤ 'Z' then Char.ofNat (c.toNat + 32) else c

/-- Which kind of element the selector resolved to: the two
`instanceof` checks of the generated script, or any other element. -/
inductive ControlKind where
  | input
  | textarea
  | other
deriving DecidableEq

/-- The assignment the generated script performs on the resolved element. -/
inductive FillAction where
  | setChecked (b : Bool)
  | setValue (v : List Char)
  | setText (v : List Char)
deriving DecidableEq

/-- `v === 'true' || v === '1' || v.toLowerCase() === 'yes'` (line 84): only
the `'yes'` comparison is case-folded in the source. -/
def checkedValue (v : List Char) : Bool :=
  v == ("true").data || v == ("1").data || (v.map lowerChar) == ("yes").data

/-- Per-pair fill logic of the compiled script: text-input-capable controls
whose lower-cased `type` attribute is `checkbox` or `radio` get their
checked state from `checkedValue`; other input-capable controls get the
value assigned; any other element gets its text content set. `tyAttr`
models `el.getAttribute('type') || ''`. -/
def applyPair (k : ControlKind) (tyAttr v : List Char) : FillAction :=
  match k with
  | .other => .setText v
  | _ =>
    let ty := tyAttr.map lowerChar
    if ty == ("checkbox").data || ty == ("radio").data then
      .setChecked (checkedValue v)
    else
      .setValue v

/-! ## JSON import gateway (`importJSON`, lines 184-198) -/

/-- The value produced by a successful `JSON.parse`. -/
inductive Json where
  | null
  | bool (b : Bool)
  | num (n : Int)
  | str (s : String)
  | arr (elems : List Json)
  | obj (props : List (String × Json))

/-- JS property read `j.k` on a parse result: only plain objects carry
own properties; parsed arrays and primitives yield `undefined` (`none`),
and reading a property of `null` throws, which the surrounding catch turns
into the same silent no-op as `undefined` does here. -/
def Json.getProp (j : Json) (k : String) : Option Json :=
  match j with
  | .obj props => (props.find? (fun p => p.1 == k)).map (·.2)
  | _ => none

/-- `Array.isArray`. -/
def Json.isArr : Json → Bool
  | .arr _ => true
  | _ => false

/-- `importJSON` translated from the source, acting on the two store
collections; `parsed` is the outcome of
`JSON.parse(String(reader.result || "{}"))`, `none` modelling a thrown
parse error (caught, leaving both collections as they were). The
collections are kept as raw JSON values because the source performs no
shape validation on what it installs. -/
def importJSON (parsed : Option Json) (fields entries : List Json) :
    List Json × List Json :=
  match parsed with
  | none => (fields, entries)
  | some obj =>
    match obj.getProp "fields", obj.getProp "entries" with
    | some (.arr fs), some (.arr es) => (fs, es)
    | _, _ =>
      match obj with
      | .arr es => (fields, es)
      | _ => (fields, entries)

/-! ## Schema/entry store (lines 5-30, 102-168, 342) -/

/-- The input kinds of the `FieldType` union. -/
inductive FieldType where
  | text
  | email
  | tel
  | date
  | number
  | textarea
deriving DecidableEq

/-- A field definition. -/
structure Field where
  id : String
  label : String
  type : FieldType
deriving DecidableEq

/-- An entry: a JS string-map object in key-insertion order. -/
abbrev Entry : Type := List (String × String)

/-- `k in obj`. -/
def hasKey (e : Entry) (k : String) : Bool :=
  e.any (fun p => p.1 == k)

/-- `obj[k]` (`none` models `undefined`). -/
def getValue (e : Entry) (k : String) : Option String :=
  (e.find? (fun p => p.1 == k)).map (·.2)

/-- The rendering `en[f.id] || ""` of a saved entry cell (line 336). -/
def display (en : Entry) (k : String) : String :=
  match getValue en k with
  | some v => if v == "" then "" else v
  | none => ""

/-- First loop of the reconciliation effect (line 146): for each field
whose id the draft lacks, insert an empty-string value; JS computed-key
insertion appends the new key at the end. -/
def addMissing (fields : List Field) (prev : Entry) : Entry :=
  fields.foldl (fun acc f => if hasKey acc f.id then acc else acc ++ [(f.id, "")]) prev

/-- The draft-reconciliation effect (lines 143-150): add empty values for
field ids the draft lacks, then delete draft keys that match no field id
(`delete next[k]` keeps the other keys in order, i.e. a filter). -/
def reconcile (fields : List Field) (prev : Entry) : Entry :=
  (addMissing fields prev).filter (fun p => fields.any (fun f => f.id == p.1))

/-- The store state: the field list, the in-progress draft entry and the
saved entries (most recent first). -/
structure Store where
  fields : List Field
  entry : Entry
  entries : List Entry
deriving DecidableEq

/-- `setFields(newFields)` together with the reconciliation effect that
follows every field-list change. -/
def setFieldsOp (newFields : List Field) (s : Store) : Store :=
  { fields := newFields, entry := reconcile newFields s.entry, entries := s.entries }

/-- `uid(prefix)` (lines 28-30): the random 8-character base-36 suffix
produced by `Math.random().toString(36).slice(2, 10)` is an external
input, passed in as `rand`. -/
def uid (pre rand : String) : String :=
  pre ++ "_" ++ rand

/-- `addField()` (lines 156-159) followed by the reconciliation effect:
append a field with the generated id, placeholder label and type text. -/
def addFieldOp (rand : String) (s : Store) : Store :=
  setFieldsOp (s.fields ++ [{ id := uid "field" rand, label := "??? ??????", type := FieldType.text }]) s

/-- `removeField(id)` (lines 161-163) followed by the reconciliation
effect. -/
def removeFieldOp (id : String) (s : Store) : Store :=
  setFieldsOp (s.fields.filter (fun f => !(f.id == id))) s

/-- `updateValue(fieldId, value)` (lines 152-154): object spread with a
computed key overwrites an existing key in place and appends a missing
key at the end. -/
def updateValue (fieldId value : String) (e : Entry) : Entry :=
  if hasKey e fieldId then
    e.map (fun p => if p.1 == fieldId then (fieldId, value) else p)
  else
    e ++ [(fieldId, value)]

/-- `updateValue` as a store operation. -/
def updateValueOp (fieldId value : String) (s : Store) : Store :=
  { s with entry := updateValue fieldId value s.entry }

/-- `saveEntry()` (lines 165-168): prepend the draft to the saved list and
reset the draft to empty values over the current field set. -/
def saveEntry (s : Store) : Store :=
  { s with
    entries := s.entry :: s.entries,
    entry := s.fields.map (fun f => (f.id, "")) }

/-- Deleting the saved entry rendered at index `i`
(line 342: `list.filter((_, i) => i !== idx)`). -/
def deleteSavedEntry (i : Nat) (s : Store) : Store :=
  { s with entries := ((s.entries.enum).filter (fun p => !(p.1 == i))).map Prod.snd }

/-! ## Lemmas: CSV escaping and line structure -/

/-- Doubling quotes neither adds nor removes which characters occur. -/
theorem mem_escQuotes {c : Char} : ∀ {v : List Char}, c ∈ escQuotes v ↔ c ∈ v := by
  intro v
  induction v with
  | nil => simp [escQuotes]
  | cons d ds ih =>
    cases hd : d == '"' with
    | true =>
      have hd' : d = '"' := by simpa using hd
      subst hd'
      simp [escQuotes, ih, or_assoc]
    | false => simp [escQuotes, hd, ih]

/-- The quote-wrapping test of `escape`, made on the already-doubled text,
agrees with the spec's test on the original value. -/
theorem escape_eq_escape_spec (v : List Char) : escape v = escape_spec v := by
  have hmem : needsQuote (escQuotes v) =
      v.any (fun c => c == ',' || c == '"' || c == '\n') := by
    rw [Bool.eq_iff_iff]
    simp only [needsQuote, List.any_eq_true]
    constructor
    · rintro ⟨c, hc, hp⟩
      refine ⟨c, mem_escQuotes.mp hc, ?_⟩
      simp only [Bool.or_eq_true, beq_iff_eq] at hp ⊢
      tauto
    · rintro ⟨c, hc, hp⟩
      refine ⟨c, mem_escQuotes.mpr hc, ?_⟩
      simp only [Bool.or_eq_true, beq_iff_eq] at hp ⊢
      tauto
  show (if needsQuote (escQuotes v) then '"' :: escQuotes v ++ ['"'] else escQuotes v) = _
  rw [hmem]
  rfl

/-- C3: CSV encode contract — encode of the empty row list is the empty
string, and on every row list the source encoder agrees with the spec's
wording of the contract (header from the first record's key order, quote
doubling, quoting exactly when the value holds a comma, quote or newline,
absent values read as empty, comma-joined cells, newline-joined rows with
no trailing newline). -/
theorem C3_toCSV_contract :
    toCSV [] = [] ∧ ∀ rows : List Row, toCSV rows = toCSV_spec rows := by
  refine ⟨rfl, ?_⟩
  intro rows
  have h : escape = escape_spec := funext escape_eq_escape_spec
  cases rows with
  | nil => rfl
  | cons r0 rest => simp only [toCSV, toCSV_spec, h]

theorem splitNl_ne_nil (l : List Char) : splitNl l ≠ [] := by
  cases l with
  | nil => simp [splitNl]
  | cons c cs =>
    by_cases h : c = '\n'
    · simp [splitNl, h]
    · cases hs : splitNl cs with
      | nil => simp [splitNl, h, hs]
      | cons x xs => simp [splitNl, h, hs]

theorem splitNl_append (a cs : List Char) (ha : '\n' ∉ a) :
    splitNl (a ++ cs) = (a ++ (splitNl cs).headI) :: (splitNl cs).tail := by
  induction a with
  | nil =>
    simp only [List.nil_append]
    cases hs : splitNl cs with
    | nil => exact absurd hs (splitNl_ne_nil cs)
    | cons x xs => simp [hs]
  | cons c a' ih =>
    have hc : ¬ c = '\n' := fun h => ha (h ▸ List.mem_cons_self c a')
    have ha' : '\n' ∉ a' := fun h => ha (List.mem_cons_of_mem _ h)
    have hrec := ih ha'
    simp [splitNl, hc, hrec]

theorem splitNl_joinWith (ls : List (List Char)) (hne : ls ≠ [])
    (hnl : ∀ l ∈ ls, '\n' ∉ l) : splitNl (joinWith ['\n'] ls) = ls := by
  induction ls with
  | nil => exact absurd rfl hne
  | cons x rest ih =>
    cases rest with
    | nil =>
      have hx : '\n' ∉ x := hnl x (by simp)
      have h := splitNl_append x [] hx
      simp only [List.append_nil, splitNl, List.headI, List.tail] at h
      simpa [joinWith] using h
    | cons y ys =>
      have hx : '\n' ∉ x := hnl x (by simp)
      have ihr := ih (by simp) (fun l hl => hnl l (List.mem_cons_of_mem _ hl))
      have h1 : joinWith ['\n'] (x :: y :: ys) =
          x ++ '\n' :: joinWith ['\n'] (y :: ys) := by
        simp [joinWith]
      rw [h1, splitNl_append x ('\n' :: joinWith ['\n'] (y :: ys)) hx]
      simp [splitNl, ihr]

theorem mem_joinWith {c : Char} {sep : List Char} :
    ∀ {ls : List (List Char)}, c ∈ joinWith sep ls → c ∈ sep ∨ ∃ l ∈ ls, c ∈ l := by
  intro ls
  induction ls with
  | nil => intro h; simp [joinWith] at h
  | cons x rest ih =>
    cases rest with
    | nil =>
      intro h
      simp only [joinWith] at h
      exact Or.inr ⟨x, by simp, h⟩
    | cons y ys =>
      intro h
      simp only [joinWith, List.append_assoc, List.mem_append] at h
      rcases h with hx | hsep | hrest
      · exact Or.inr ⟨x, by simp, hx⟩
      · exact Or.inl hsep
      · rcases ih hrest with h | ⟨l, hl, hcl⟩
        · exact Or.inl h
        · exact Or.inr ⟨l, List.mem_cons_of_mem _ hl, hcl⟩

theorem not_mem_escape {c : Char} {v : List Char} (hc : c ∉ v) (hq : c ≠ '"') :
    c ∉ escape v := by
  have h1 : c ∉ escQuotes v := fun h => hc (mem_escQuotes.mp h)
  show c ∉ (if needsQuote (escQuotes v) then '"' :: escQuotes v ++ ['"'] else escQuotes v)
  by_cases h : needsQuote (escQuotes v)
  · rw [if_pos h]
    simp only [List.mem_cons, List.mem_append, List.mem_singleton]
    tauto
  · rw [if_neg h]
    exact h1

/-- C5 (amended): for all non-empty lists of uniform records none of whose
keys or values contains a newline character, the CSV encoding split on
newline is exactly the header line followed by one encoded line per record,
so it has `rows.length + 1` lines and its first line is the comma-join of
the first record's key order; and any value containing a comma is emitted
in its quote-wrapped form. Without the no-newline proviso the line count
fails (see the counterexample), which is the only change forced on the
claim. -/
theorem C5_lines_amended (rows : List Row) (hne : rows ≠ [])
    (hnl : ∀ r ∈ rows, ∀ p ∈ r, '\n' ∉ p.1 ∧ '\n' ∉ p.2)
    (huni : ∀ r ∈ rows,
      (r.map Prod.fst).all (fun k => (rows.headI.map Prod.fst).contains k)
      ∧ (rows.headI.map Prod.fst).all (fun k => (r.map Prod.fst).contains k)) :
    splitNl (toCSV rows) =
      joinWith [','] (rows.headI.map Prod.fst) ::
        rows.map (fun row =>
          joinWith [','] ((rows.headI.map Prod.fst).map
            (fun h => escape ((getRV row h).getD []))))
    ∧ (splitNl (toCSV rows)).length = rows.length + 1
    ∧ (splitNl (toCSV rows)).headI = joinWith [','] (rows.headI.map Prod.fst)
    ∧ ∀ v : List Char, ',' ∈ v → escape v = '"' :: escQuotes v ++ ['"'] := by
  obtain ⟨r0, rest, rfl⟩ : ∃ r0 rest, rows = r0 :: rest := by
    cases rows with
    | nil => exact absurd rfl hne
    | cons a b => exact ⟨a, b, rfl⟩
  clear hne huni
  simp only [List.headI]
  have hline : ∀ l ∈ (joinWith [','] (r0.map Prod.fst) ::
      (r0 :: rest).map (fun row =>
        joinWith [','] ((r0.map Prod.fst).map
          (fun h => escape ((getRV row h).getD []))))), '\n' ∉ l := by
    intro l hl
    rcases List.mem_cons.mp hl with rfl | hl'
    · intro hmem
      rcases mem_joinWith hmem with hsep | ⟨kk, hk, hck⟩
      · simp at hsep
      · obtain ⟨p, hp, rfl⟩ := List.mem_map.mp hk
        exact ((hnl r0 (by simp) p hp).1) hck
    · obtain ⟨row, hrow, rfl⟩ := List.mem_map.mp hl'
      intro hmem
      rcases mem_joinWith hmem with hsep | ⟨cell, hcell, hccell⟩
      · simp at hsep
      · obtain ⟨hkey, hk2, rfl⟩ := List.mem_map.mp hcell
        have hval : '\n' ∉ (getRV row hkey).getD [] := by
          rcases hf : row.find? (fun p => p.1 == hkey) with _ | p
          · simp [getRV, hf]
          · have hpmem := List.mem_of_find?_eq_some hf
            simp only [getRV, hf, Option.map_some', Option.getD_some]
            exact (hnl row hrow p hpmem).2
        exact not_mem_escape hval (by decide) hccell
  have key : splitNl (toCSV (r0 :: rest)) =
      joinWith [','] (r0.map Prod.fst) ::
        (r0 :: rest).map (fun row =>
          joinWith [','] ((r0.map Prod.fst).map
            (fun h => escape ((getRV row h).getD [])))) :=
    splitNl_joinWith _ (by simp) hline
  refine ⟨key, ?_, ?_, ?_⟩
  · rw [key]
    simp
  · rw [key]
  · intro v hv
    have hq : needsQuote (escQuotes v) = true :=
      List.any_eq_true.mpr ⟨',', mem_escQuotes.mpr hv, by simp⟩
    show (if needsQuote (escQuotes v) then '"' :: escQuotes v ++ ['"'] else escQuotes v) = _
    rw [if_pos hq]

/-- Witness for C5 (amended) at a concrete single-row table. -/
theorem C5_lines_amended_witness :
    (splitNl (toCSV [[(['a'], ['x'])]])).length = 1 + 1
    ∧ (splitNl (toCSV [[(['a'], ['x'])]])).headI =
        joinWith [','] ([[(['a'], ['x'])]].headI.map Prod.fst) := by
  have h := C5_lines_amended [[(['a'], ['x'])]] (by decide) (by decide) (by decide)
  exact ⟨h.2.1, h.2.2.1⟩

/-- C5 counterexample: a single uniform record whose value contains a
newline is quoted but still contributes an embedded newline, so splitting
the encoding on newline yields 3 lines, not `rows.length + 1 = 2`; the
claim as stated is false at this input. -/
theorem C5_counterexample :
    ¬ ((splitNl (toCSV [[(['a'], ['x', '\n', 'y'])]])).length =
        [[(['a'], ['x', '\n', 'y'])]].length + 1) := by
  decide

/-- C4: evaluation of the source parser at the separator syntax the page
itself documents (line 360 of page.tsx shows
`input[name=email] = user@example.com` as the canonical example). The
parser splits at EVERY `=`/`:` match and rejoins the remainder with a
colon-space, so this input yields the pair
`("input[name", "email]: user@example.com")` and NOT the documented
`("input[name=email]", "user@example.com")`. -/
theorem C4_parse_at_documented_example :
    parseBookmarkletPairs (("input[name=email] = user@example.com").data) =
      [(("input[name").data, ("email]: user@example.com").data)]
    ∧ ¬ (parseBookmarkletPairs (("input[name=email] = user@example.com").data) =
        [(("input[name=email]").data, ("user@example.com").data)]) := by
  constructor
  · decide
  · decide

/-! ## Autofill fill logic (C6) -/

/-- C6 (amended): for an input-capable control whose lower-cased type
attribute is checkbox or radio, the compiled script sets the checked state
to `checkedValue v`, which is true iff the value EXACTLY equals "true" or
"1", or case-insensitively equals "yes" (the source only case-folds the
"yes" comparison); for every other input-capable control the value string
is assigned as the control's value. -/
theorem C6_checkbox_fill (k : ControlKind) (tyAttr v : List Char)
    (hk : k ≠ ControlKind.other) :
    ((tyAttr.map lowerChar = ("checkbox").data ∨ tyAttr.map lowerChar = ("radio").data) →
      applyPair k tyAttr v = FillAction.setChecked (checkedValue v)
      ∧ (checkedValue v = true ↔
          (v = ("true").data ∨ v = ("1").data ∨ v.map lowerChar = ("yes").data)))
    ∧ ((tyAttr.map lowerChar ≠ ("checkbox").data ∧ tyAttr.map lowerChar ≠ ("radio").data) →
      applyPair k tyAttr v = FillAction.setValue v) := by
  constructor
  · intro hty
    have hcond : (tyAttr.map lowerChar == ("checkbox").data
        || tyAttr.map lowerChar == ("radio").data) = true := by
      rcases hty with h | h <;> simp [h]
    constructor
    · cases k with
      | other => exact absurd rfl hk
      | input => simp [applyPair, hcond]
      | textarea => simp [applyPair, hcond]
    · simp [checkedValue, Bool.or_eq_true, beq_iff_eq, or_assoc]
  · rintro ⟨h1, h2⟩
    have hcond : (tyAttr.map lowerChar == ("checkbox").data
        || tyAttr.map lowerChar == ("radio").data) = false := by
      simp only [Bool.or_eq_false_iff, beq_eq_false_iff_ne, ne_eq]
      exact ⟨h1, h2⟩
    cases k with
    | other => exact absurd rfl hk
    | input => simp [applyPair, hcond]
    | textarea => simp [applyPair, hcond]

/-- Witness for C6 (amended): a checkbox receiving the value "1" is
checked. -/
theorem C6_checkbox_fill_witness :
    applyPair ControlKind.input (("checkbox").data) (("1").data) =
      FillAction.setChecked (checkedValue (("1").data))
    ∧ checkedValue (("1").data) = true := by
  refine ⟨((C6_checkbox_fill ControlKind.input (("checkbox").data) (("1").data)
    (by decide)).1 (Or.inl (by decide))).1, by decide⟩

/-- C6 counterexample: the value "TRUE" case-insensitively equals "true",
yet the compiled script leaves the checkbox unchecked, because the source
compares "true" and "1" case-sensitively; the claim as stated is false at
this input. -/
theorem C6_counterexample :
    (("TRUE").data.map lowerChar = ("true").data)
    ∧ applyPair ControlKind.input (("checkbox").data) (("TRUE").data) ≠
        FillAction.setChecked true := by
  constructor
  · decide
  · decide

/-! ## JSON import (C2) -/

/-- When the parsed value is not an array and does not have array-valued
`fields` and `entries` properties, the import is a no-op. -/
theorem importJSON_noop (j : Json) (fields entries : List Json)
    (hj : j.isArr = false)
    (hno : ∀ fs es, ¬ (j.getProp ("fields") = some (Json.arr fs) ∧
        j.getProp ("entries") = some (Json.arr es))) :
    importJSON (some j) fields entries = (fields, entries) := by
  cases j with
  | arr es => exact absurd hj (by simp [Json.isArr])
  | null => rfl
  | bool b => rfl
  | num n => rfl
  | str s => rfl
  | obj props =>
    cases hf : Json.getProp (Json.obj props) ("fields") with
    | none =>
      simp only [importJSON]
      rw [hf]
    | some jf =>
      cases he : Json.getProp (Json.obj props) ("entries") with
      | none =>
        simp only [importJSON]
        rw [hf, he]
        cases jf <;> rfl
      | some je =>
        cases jf with
        | arr fs =>
          cases je with
          | arr es => exact absurd ⟨hf, he⟩ (hno fs es)
          | null => simp only [importJSON]; rw [hf, he]
          | bool b => simp only [importJSON]; rw [hf, he]
          | num n => simp only [importJSON]; rw [hf, he]
          | str s => simp only [importJSON]; rw [hf, he]
          | obj props2 => simp only [importJSON]; rw [hf, he]
        | null => simp only [importJSON]; rw [hf, he]
        | bool b => simp only [importJSON]; rw [hf, he]
        | num n => simp only [importJSON]; rw [hf, he]
        | str s => simp only [importJSON]; rw [hf, he]
        | obj props2 => simp only [importJSON]; rw [hf, he]

/-- C2: the import contract — an object with array-valued `fields` and
`entries` replaces both collections; a bare array replaces only the
entries; in every other case, including a JSON parse failure, both
collections are left exactly equal to their pre-import values. -/
theorem C2_importJSON_contract (parsed : Option Json) (fields entries : List Json) :
    (∀ j fs es, parsed = some j → j.getProp ("fields") = some (Json.arr fs) →
        j.getProp ("entries") = some (Json.arr es) →
        importJSON parsed fields entries = (fs, es))
    ∧ (∀ es, parsed = some (Json.arr es) →
        importJSON parsed fields entries = (fields, es))
    ∧ (parsed = none → importJSON parsed fields entries = (fields, entries))
    ∧ (∀ j, parsed = some j → j.isArr = false →
        (∀ fs es, ¬ (j.getProp ("fields") = some (Json.arr fs) ∧
            j.getProp ("entries") = some (Json.arr es))) →
        importJSON parsed fields entries = (fields, entries)) := by
  refine ⟨?_, ?_, ?_, ?_⟩
  · rintro j fs es rfl h1 h2
    simp only [importJSON]
    rw [h1, h2]
  · rintro es rfl
    rfl
  · rintro rfl
    rfl
  · rintro j rfl hj hno
    exact importJSON_noop j fields entries hj hno

/-- Witness for C2 at a concrete well-shaped configuration object. -/
theorem C2_importJSON_contract_witness :
    importJSON (some (Json.obj [("fields", Json.arr []), ("entries", Json.arr [Json.null])]))
      [Json.num 7] [Json.num 8] = ([], [Json.null]) :=
  (C2_importJSON_contract _ _ _).1 _ [] [Json.null] rfl rfl rfl

/-! ## Store lemmas -/

theorem hasKey_append (a b : Entry) (k : String) :
    hasKey (a ++ b) k = (hasKey a k || hasKey b k) := by
  simp [hasKey, List.any_append]

theorem hasKey_iff_exists {e : Entry} {k : String} :
    hasKey e k = true ↔ ∃ v, (k, v) ∈ e := by
  simp only [hasKey, List.any_eq_true]
  constructor
  · rintro ⟨⟨k', v⟩, hmem, hk⟩
    simp only [beq_iff_eq] at hk
    subst hk
    exact ⟨v, hmem⟩
  · rintro ⟨v, hmem⟩
    exact ⟨(k, v), hmem, by simp⟩

theorem find?_isSome_eq_hasKey (e : Entry) (k : String) :
    (e.find? (fun p => p.1 == k)).isSome = hasKey e k := by
  induction e with
  | nil => rfl
  | cons p ps ih =>
    cases h : (p.1 == k) with
    | true => simp [List.find?, hasKey, h]
    | false => simp [List.find?, hasKey, h, ih]

theorem find?_eq_none_of_hasKey_false {e : Entry} {k : String}
    (h : hasKey e k = false) : e.find? (fun p => p.1 == k) = none := by
  have h1 := find?_isSome_eq_hasKey e k
  rw [h] at h1
  exact Option.not_isSome_iff_eq_none.mp (by simp [h1])

theorem find?_append_of_some {α : Type} {q : α → Bool} {a b : List α} {x : α}
    (h : a.find? q = some x) : (a ++ b).find? q = some x := by
  induction a with
  | nil => simp [List.find?] at h
  | cons y ys ih =>
    cases hq : q y with
    | true =>
      simp only [List.find?, hq] at h
      simp only [List.cons_append, List.find?, hq]
      exact h
    | false =>
      simp only [List.find?, hq] at h
      simp only [List.cons_append, List.find?, hq]
      exact ih h

theorem find?_append_of_none {α : Type} {q : α → Bool} {a b : List α}
    (h : a.find? q = none) : (a ++ b).find? q = b.find? q := by
  induction a with
  | nil => simp
  | cons y ys ih =>
    cases hq : q y with
    | true =>
      simp only [List.find?, hq] at h
      exact absurd h (by simp)
    | false =>
      simp only [List.find?, hq] at h
      simp only [List.cons_append, List.find?, hq]
      exact ih h

/-- Filtering by a predicate that holds of every pair keyed `k` does not
change what a key-`k` lookup finds. -/
theorem find?_filter_keyStable {k : String} {q : String × String → Bool}
    (e : Entry) (hq : ∀ p : String × String, p.1 = k → q p = true) :
    (e.filter q).find? (fun p => p.1 == k) = e.find? (fun p => p.1 == k) := by
  induction e with
  | nil => rfl
  | cons p ps ih =>
    cases hpk : (p.1 == k) with
    | true =>
      have hqp : q p = true := hq p (by simpa using hpk)
      simp [List.filter_cons, hqp, List.find?, hpk]
    | false =>
      cases hqp : q p with
      | true => simp [List.filter_cons, hqp, List.find?, hpk, ih]
      | false => simp [List.filter_cons, hqp, List.find?, hpk, ih]

theorem addMissing_cons (f : Field) (fs : List Field) (prev : Entry) :
    addMissing (f :: fs) prev =
      if hasKey prev f.id then addMissing fs prev
      else addMissing fs (prev ++ [(f.id, "")]) := by
  simp only [addMissing, List.foldl_cons]
  by_cases h : hasKey prev f.id <;> simp [h]

/-- The first reconciliation loop only appends, and what it appends are
empty-string values for keys the draft did not have. -/
theorem addMissing_structure : ∀ (fs : List Field) (prev : Entry),
    ∃ rest, addMissing fs prev = prev ++ rest ∧
      ∀ p ∈ rest, p.2 = "" ∧ hasKey prev p.1 = false := by
  intro fs
  induction fs with
  | nil =>
    intro prev
    exact ⟨[], by simp [addMissing], by simp⟩
  | cons f fs ih =>
    intro prev
    rw [addMissing_cons]
    by_cases h : hasKey prev f.id
    · rw [if_pos h]
      exact ih prev
    · rw [if_neg h]
      obtain ⟨rest, heq, hprop⟩ := ih (prev ++ [(f.id, "")])
      refine ⟨(f.id, "") :: rest, ?_, ?_⟩
      · rw [heq]
        simp
      · intro p hp
        rcases List.mem_cons.mp hp with rfl | hp'
        · exact ⟨rfl, by simpa using h⟩
        · obtain ⟨hval, hkey⟩ := hprop p hp'
          refine ⟨hval, ?_⟩
          rw [hasKey_append] at hkey
          cases hx : hasKey prev p.1 with
          | false => rfl
          | true => rw [hx] at hkey; simp at hkey

theorem addMissing_hasKey_of_hasKey {fs : List Field} {prev : Entry} {k : String}
    (h : hasKey prev k = true) : hasKey (addMissing fs prev) k = true := by
  obtain ⟨rest, heq, -⟩ := addMissing_structure fs prev
  rw [heq, hasKey_append, h]
  rfl

/-- After the first reconciliation loop, every field id is a key. -/
theorem addMissing_covers : ∀ (fs : List Field) (prev : Entry) (f : Field),
    f ∈ fs → hasKey (addMissing fs prev) f.id = true := by
  intro fs
  induction fs with
  | nil =>
    intro prev f h
    simp at h
  | cons g gs ih =>
    intro prev f hf
    rw [addMissing_cons]
    rcases List.mem_cons.mp hf with rfl | hf'
    · by_cases h : hasKey prev f.id
      · rw [if_pos h]
        exact addMissing_hasKey_of_hasKey h
      · rw [if_neg h]
        apply addMissing_hasKey_of_hasKey
        rw [hasKey_append]
        have hone : hasKey [(f.id, "")] f.id = true := by simp [hasKey]
        rw [hone]
        simp
    · by_cases h : hasKey prev g.id
      · rw [if_pos h]
        exact ih prev f hf'
      · rw [if_neg h]
        exact ih _ f hf'

/-- A key that equals some field id passes the reconciliation filter. -/
theorem anyKey_of_mem {fs : List Field} {k : String} (hk : k ∈ fs.map Field.id) :
    ∀ p : String × String, p.1 = k → (fs.any (fun f => f.id == p.1)) = true := by
  intro p hp
  obtain ⟨f, hf, hfk⟩ := List.mem_map.mp hk
  rw [hp]
  exact List.any_eq_true.mpr ⟨f, hf, by simp [hfk]⟩

theorem reconcile_hasKey_iff (fs : List Field) (prev : Entry) (k : String) :
    hasKey (reconcile fs prev) k = true ↔ k ∈ fs.map Field.id := by
  constructor
  · intro h
    obtain ⟨v, hv⟩ := hasKey_iff_exists.mp h
    simp only [reconcile] at hv
    have hmem := List.mem_filter.mp hv
    obtain ⟨f, hf, hfk⟩ := List.any_eq_true.mp hmem.2
    simp only [beq_iff_eq] at hfk
    exact List.mem_map.mpr ⟨f, hf, hfk⟩
  · intro h
    obtain ⟨f, hf, rfl⟩ := List.mem_map.mp h
    have hcov := addMissing_covers fs prev f hf
    obtain ⟨v, hv⟩ := hasKey_iff_exists.mp hcov
    apply hasKey_iff_exists.mpr
    refine ⟨v, ?_⟩
    simp only [reconcile]
    refine List.mem_filter.mpr ⟨hv, ?_⟩
    exact List.any_eq_true.mpr ⟨f, hf, by simp⟩

theorem reconcile_getValue_new (fs : List Field) (prev : Entry) (k : String)
    (hk : k ∈ fs.map Field.id) (hnew : hasKey prev k = false) :
    getValue (reconcile fs prev) k = some "" := by
  simp only [getValue, reconcile]
  rw [find?_filter_keyStable _ (anyKey_of_mem hk)]
  obtain ⟨rest, heq, hprop⟩ := addMissing_structure fs prev
  have hcov : hasKey (addMissing fs prev) k = true := by
    obtain ⟨f, hf, hfk⟩ := List.mem_map.mp hk
    exact hfk ▸ addMissing_covers fs prev f hf
  rw [heq] at hcov ⊢
  rw [find?_append_of_none (find?_eq_none_of_hasKey_false hnew)]
  rw [hasKey_append, hnew] at hcov
  simp only [Bool.false_or] at hcov
  have hsome := find?_isSome_eq_hasKey rest k
  rw [hcov] at hsome
  obtain ⟨p, hp⟩ := Option.isSome_iff_exists.mp hsome
  rw [hp]
  have hpmem : p ∈ rest := List.mem_of_find?_eq_some hp
  have hval := (hprop p hpmem).1
  simp [hval]

theorem reconcile_getValue_old (fs : List Field) (prev : Entry) (k : String)
    (hk : k ∈ fs.map Field.id) (hold : hasKey prev k = true) :
    getValue (reconcile fs prev) k = getValue prev k := by
  simp only [getValue, reconcile]
  rw [find?_filter_keyStable _ (anyKey_of_mem hk)]
  obtain ⟨rest, heq, -⟩ := addMissing_structure fs prev
  rw [heq]
  have hsome := find?_isSome_eq_hasKey prev k
  rw [hold] at hsome
  obtain ⟨p, hp⟩ := Option.isSome_iff_exists.mp hsome
  rw [find?_append_of_some hp, hp]

/-- C1: after `setFields` the field list is replaced and the reconciled
draft entry's key set exactly equals the new field-list id set; a new id
maps to the empty string, and the value of any id the draft already had is
unchanged. -/
theorem C1_setFields_reconciliation (newFields : List Field) (s : Store) (k : String) :
    (setFieldsOp newFields s).fields = newFields
    ∧ (hasKey (setFieldsOp newFields s).entry k = true ↔ k ∈ newFields.map Field.id)
    ∧ (k ∈ newFields.map Field.id → hasKey s.entry k = false →
        getValue (setFieldsOp newFields s).entry k = some "")
    ∧ (k ∈ newFields.map Field.id → hasKey s.entry k = true →
        getValue (setFieldsOp newFields s).entry k = getValue s.entry k) :=
  ⟨rfl, reconcile_hasKey_iff newFields s.entry k,
    fun h1 h2 => reconcile_getValue_new newFields s.entry k h1 h2,
    fun h1 h2 => reconcile_getValue_old newFields s.entry k h1 h2⟩

/-- Witness for C1 at a concrete transition: a kept id keeps its value. -/
theorem C1_setFields_reconciliation_witness :
    getValue (setFieldsOp [{ id := "name", label := "N", type := FieldType.text }]
      { fields := [], entry := [("name", "v"), ("old", "w")], entries := [] }).entry ("name")
      = some "v" := by
  have h := (C1_setFields_reconciliation
    [{ id := "name", label := "N", type := FieldType.text }]
    { fields := [], entry := [("name", "v"), ("old", "w")], entries := [] } ("name")).2.2.2
  rw [h (by decide) (by decide)]
  decide

/-! ## Save/delete, frame effects, addField, updateValue (C7-C10) -/

theorem enumFrom_filter_ne_zero : ∀ (l : List Entry) (n : Nat), n ≠ 0 →
    (List.enumFrom n l).filter (fun p => !(p.1 == 0)) = List.enumFrom n l := by
  intro l
  induction l with
  | nil => intro n _; rfl
  | cons e es ih =>
    intro n hn
    have h0 : (n == 0) = false := by simpa using hn
    simp only [List.enumFrom, List.filter_cons, h0, Bool.not_false, if_pos]
    rw [ih (n + 1) (Nat.succ_ne_zero n)]

theorem enumFrom_map_snd_eq : ∀ (l : List Entry) (n : Nat),
    (List.enumFrom n l).map Prod.snd = l := by
  intro l
  induction l with
  | nil => intro n; rfl
  | cons e es ih => intro n; simp [List.enumFrom, ih]

/-- C7: `saveEntry` followed by `deleteSavedEntry 0` restores the saved
list exactly, while the draft has been reset to all-empty over the current
field set and the field list is untouched. -/
theorem C7_save_then_delete_zero (s : Store) :
    (deleteSavedEntry 0 (saveEntry s)).entries = s.entries
    ∧ (deleteSavedEntry 0 (saveEntry s)).entry = s.fields.map (fun f => (f.id, ""))
    ∧ (deleteSavedEntry 0 (saveEntry s)).fields = s.fields := by
  refine ⟨?_, rfl, rfl⟩
  show ((List.enum (s.entry :: s.entries)).filter (fun p => !(p.1 == 0))).map Prod.snd
      = s.entries
  rw [show List.enum (s.entry :: s.entries)
      = (0, s.entry) :: List.enumFrom 1 s.entries from rfl]
  rw [List.filter_cons]
  simp only [show (!((0 : Nat), s.entry).1 == 0) = false from rfl, if_neg,
    Bool.false_eq_true, not_false_eq_true]
  rw [enumFrom_filter_ne_zero s.entries 1 one_ne_zero, enumFrom_map_snd_eq]

/-- C8: every field-set mutation (replace, add, remove, each including the
draft reconciliation that follows) leaves the saved-entries list unchanged,
and the saved-list renderer maps a missing key to the empty string. -/
theorem C8_field_changes_frame (s : Store) (newFields : List Field)
    (rand id k : String) (en : Entry) :
    (setFieldsOp newFields s).entries = s.entries
    ∧ (addFieldOp rand s).entries = s.entries
    ∧ (removeFieldOp id s).entries = s.entries
    ∧ (getValue en k = none → display en k = "") := by
  refine ⟨rfl, rfl, rfl, ?_⟩
  intro h
  simp [display, h]

/-- Witness for C8: a saved entry lacking the rendered field id displays
the empty string. -/
theorem C8_field_changes_frame_witness :
    getValue [("a", "x")] ("b") = none ∧ display [("a", "x")] ("b") = "" := by
  refine ⟨by decide, ?_⟩
  exact (C8_field_changes_frame { fields := [], entry := [], entries := [] }
    [] ("") ("") ("b") [("a", "x")]).2.2.2 (by decide)

/-- C9 (amended): `addField` appends exactly one field at the end of the
list, with id `field_` plus the freshly generated random suffix, the
placeholder label and type text, leaving every existing field unchanged;
the new id is distinct from all existing ids WHENEVER the generated id does
not already occur among them — the source performs no uniqueness check, so
unconditional uniqueness fails (see the counterexample). -/
theorem C9_addField_amended (s : Store) (rand : String) :
    (addFieldOp rand s).fields =
      s.fields ++ [Field.mk (uid ("field") rand) ("??? ??????") FieldType.text]
    ∧ (¬ uid ("field") rand ∈ s.fields.map Field.id →
        ∀ f ∈ s.fields, f.id ≠ uid ("field") rand) := by
  refine ⟨rfl, ?_⟩
  intro h f hf heq
  exact h (List.mem_map.mpr ⟨f, hf, heq⟩)

/-- Witness for C9 (amended) on a store whose ids do not collide with the
generated one. -/
theorem C9_addField_amended_witness :
    ({ id := "name", label := "N", type := FieldType.text } : Field).id ≠
      uid ("field") ("ab") :=
  (C9_addField_amended
    { fields := [{ id := "name", label := "N", type := FieldType.text }],
      entry := [], entries := [] } ("ab")).2 (by decide)
    { id := "name", label := "N", type := FieldType.text } (by decide)

/-- C9 counterexample: a store can already contain a field whose id equals
the generated one (e.g. injected by `importJSON`, or produced by an earlier
`addField` whose random suffix repeats); then the appended field's id
duplicates an existing id, refuting the claimed unconditional uniqueness. -/
theorem C9_counterexample :
    ((addFieldOp ("zz")
      { fields := [{ id := "field_zz", label := "L", type := FieldType.text }],
        entry := [("field_zz", "")], entries := [] }).fields.map Field.id)
      = ["field_zz", "field_zz"]
    ∧ ¬ ((addFieldOp ("zz")
      { fields := [{ id := "field_zz", label := "L", type := FieldType.text }],
        entry := [("field_zz", "")], entries := [] }).fields.map Field.id).Nodup := by
  constructor
  · decide
  · decide

theorem find?_map_overwrite : ∀ (e : Entry) (k v : String), hasKey e k = true →
    (e.map (fun p => if p.1 == k then (k, v) else p)).find? (fun p => p.1 == k)
      = some (k, v) := by
  intro e
  induction e with
  | nil =>
    intro k v h
    simp [hasKey] at h
  | cons p ps ih =>
    intro k v h
    cases hpk : (p.1 == k) with
    | true => simp [List.map_cons, hpk, List.find?]
    | false =>
      have h' : hasKey ps k = true := by
        simp only [hasKey, List.any_cons, hpk, Bool.false_or] at h
        exact h
      simp only [List.map_cons, hpk, if_neg, List.find?, Bool.false_eq_true,
        not_false_eq_true]
      exact ih k v h'

theorem getValue_updateValue (e : Entry) (k v : String) :
    getValue (updateValue k v e) k = some v := by
  by_cases h : hasKey e k = true
  · simp only [updateValue, if_pos h, getValue, find?_map_overwrite e k v h,
      Option.map_some']
  · have hb : hasKey e k = false := by simpa using h
    simp only [updateValue, if_neg h, getValue]
    rw [find?_append_of_none (find?_eq_none_of_hasKey_false hb)]
    simp [List.find?]

/-- C10: `updateValue` sets the given key unconditionally — afterwards the
draft maps `fieldId` to `value` even when `fieldId` matches no current
field, so the key-set invariant of the draft can be broken by this
operation (it is restored only by the next field-set change). -/
theorem C10_updateValue_unconditional (s : Store) (fieldId value : String) :
    getValue (updateValueOp fieldId value s).entry fieldId = some value
    ∧ (¬ fieldId ∈ s.fields.map Field.id →
        ¬ (∀ k, hasKey (updateValueOp fieldId value s).entry k = true ↔
            k ∈ s.fields.map Field.id)) := by
  constructor
  · exact getValue_updateValue s.entry fieldId value
  · intro hnot hall
    apply hnot
    apply (hall fieldId).mp
    have h1 : hasKey (updateValue fieldId value s.entry) fieldId = true := by
      rw [← find?_isSome_eq_hasKey]
      rcases hf : List.find? (fun p => p.1 == fieldId)
          (updateValue fieldId value s.entry) with _ | p
      · exfalso
        have h := getValue_updateValue s.entry fieldId value
        simp only [getValue, hf, Option.map_none'] at h
        exact Option.noConfusion h
      · rw [hf]
        rfl
    exact h1

/-- Witness for C10: writing a value under an id outside the field set
breaks the draft/field key-set invariant. -/
theorem C10_updateValue_unconditional_witness :
    ¬ (∀ k, hasKey (updateValueOp ("ghost") ("v")
        { fields := [], entry := [], entries := [] }).entry k = true ↔
        k ∈ ({ fields := [], entry := [], entries := [] } : Store).fields.map Field.id) :=
  (C10_updateValue_unconditional
    { fields := [], entry := [], entries := [] } ("ghost") ("v")).2 (by decide)

end FormApp
